import Mathlib

/-!
# Verification of the `rest/matcher` path-pattern matcher

A shallow embedding of `rest/matcher/match.go` from kubegems/library.

Strings are modelled as `List Char` (the Go code indexes byte-wise and all
inputs of interest are ASCII, where byte indexing and rune iteration agree).
Go maps (`map[string]string`) are modelled as association lists with
insert-or-replace (`bset`); `maps.Copy dst src` becomes a fold of `bset`
over `src` (`bcopy`), which has the same lookup semantics.

The Go `regexp` package is an external dependency of the matcher, not code
of this repository, so it is treated as an oracle: `RegexCheck` stands for
`regexp.Compile` (returning `none` on success and `some errorMessage` on
failure), and `RegexMatch` stands for `(*Regexp).MatchString` applied to a
compiled validator (`Element.Validate` stores the anchored source text
`"^" ++ expr ++ "$"` that `Compile` passes to `regexp.Compile`).

`matchchildren` in Go recurses on a child node with the leftover token
list, which is always strictly shorter than the input token list (a
Section match consumes at least the head token).  The embedding makes this
termination argument explicit with a fuel parameter; `Tree.Match` supplies
`tokens.length` fuel, which the Go recursion never exceeds, and the
fuel-exhausted branch coincides with the `len(tokens) == 0` early return,
so the embedding computes exactly what the Go code computes.
-/

namespace Matcher

/-- Character strings, as Go byte strings over ASCII input. -/
abbrev Chars := List Char

/-- Convenience: the character list of a string literal. -/
def cs (s : String) : Chars := s.data

/-- Oracle for `regexp.Compile`: `none` means the expression compiles,
`some msg` is the error message `err.Error()` of a failed compilation. -/
abbrev RegexCheck := Chars → Option Chars

/-- Oracle for `(*Regexp).MatchString` of a compiled validator; the first
argument is the anchored source stored in `Element.Validate`. -/
abbrev RegexMatch := Chars → Chars → Bool

/-- A `regexp.Compile` oracle under which every expression compiles. -/
def rcAll : RegexCheck := fun _ => none

/-- A trivial `MatchString` oracle (irrelevant when no validators occur). -/
def rmAll : RegexMatch := fun _ _ => true

/-- Helper for `hasPrefix`, by recursion on the prefix alone (so that it
reduces whenever the prefix is concrete). -/
def hasPrefixAux : Chars → Chars → Bool
  | [] => fun _ => true
  | p :: ps => fun s =>
    match s with
    | [] => false
    | c :: rest => p == c && hasPrefixAux ps rest

/-- `strings.HasPrefix`. -/
def hasPrefix (s pre : Chars) : Bool := hasPrefixAux pre s

/-- `strings.Index`: index of the first occurrence of `pat` in `s`,
`none` for Go's `-1`.  `strIndex s [] = some 0`, as in Go. -/
def strIndex (s pat : Chars) : Option Nat :=
  if hasPrefix s pat then some 0
  else
    match s with
    | [] => none
    | _ :: rest => (strIndex rest pat).map (· + 1)

/-- `s[a:b]` on character lists. -/
def slice (s : Chars) (a b : Nat) : Chars := (s.drop a).take (b - a)

/-- Go `map[string]string`, as an association list; the list order is an
artifact of the embedding, all statements go through `blookup`. -/
abbrev Bindings := List (Chars × Chars)

/-- `m[k] = v`: insert-or-replace. -/
def bset (m : Bindings) (k v : Chars) : Bindings :=
  match m with
  | [] => [(k, v)]
  | (k', v') :: rest => if k' = k then (k, v) :: rest else (k', v') :: bset rest k v

/-- Map lookup. -/
def blookup (m : Bindings) (k : Chars) : Option Chars :=
  match m with
  | [] => none
  | (k', v') :: rest => if k' = k then some v' else blookup rest k

/-- `maps.Copy dst src`: entries of `src` overwrite entries of `dst`. -/
def bcopy (dst src : Bindings) : Bindings :=
  src.foldl (fun d kv => bset d kv.1 kv.2) dst

/-- `Element` of `match.go`: one atomic piece of a compiled section. -/
structure Element where
  Pattern : Chars
  VarName : Chars
  Greedy : Bool
  Validate : Option Chars
deriving DecidableEq, Repr

instance : Inhabited Element := ⟨⟨[], [], false, none⟩⟩

/-- `Section` of `match.go`. -/
abbrev PSection := List Element

/-- `CompileError` of `match.go`. -/
structure CompileError where
  Pattern : Chars
  Position : Nat
  Str : Chars
  Message : Chars
deriving DecidableEq, Repr

/-- The code after `Compile`'s character loop ends: the unclosed-variable
check and the closing of the last pending constant run. -/
def compileFinish (pattern : Chars) (pre : Int) (curly : Int) (elems : List Element) :
    Except CompileError (List Element) :=
  if curly ≠ 0 then
    .error ⟨pattern, pattern.length - 1, [], cs "unclosed variable"⟩
  else
    .ok (if pre ≠ -1 then elems ++ [⟨pattern.drop pre.toNat, [], false, none⟩] else elems)

/-- The `case '}'` element construction of `Compile` (variable name,
optional `:`-separated constraint compiled through the `regexp` oracle).
The element is returned without the greedy flag, which the caller sets
from the lookahead. -/
def closeVar (rc : RegexCheck) (pattern : Chars) (pre : Int) (i : Nat) :
    Except CompileError Element :=
  let varname := slice pattern (pre + 1).toNat i
  let elemPattern := slice pattern pre.toNat (i + 1)
  match strIndex varname (cs ":") with
  | some idx =>
    let name := varname.take idx
    let regstr := varname.drop (idx + 1)
    if regstr ≠ [] then
      match rc regstr with
      | some errmsg => .error ⟨pattern, (pre + 1 + Int.ofNat idx + 1).toNat, regstr, errmsg⟩
      | none => .ok ⟨elemPattern, name, false, some (('^' :: regstr) ++ ['$'])⟩
    else
      .ok ⟨elemPattern, name, false, none⟩
  | none =>
    .ok ⟨elemPattern, varname, false, none⟩

/-- One iteration of `Compile`'s character switch on `c = pattern[i]`,
with `rest` the characters after `c`.  The result's boolean records
whether the iteration consumed the following character as well (the
backslash skip, or the `'*'` greedy marker after `'}'`); the rest of the
result is the updated `(pre, curly, elems)` state. -/
def compileStep (rc : RegexCheck) (pattern : Chars) (c : Char) (rest : Chars) (i : Nat)
    (pre curly : Int) (elems : List Element) :
    Except CompileError (Bool × Int × Int × List Element) :=
  if c = '\\' then
    .ok (true, pre, curly, elems)
  else if c = '{' then
    if curly = 0 then
      .ok (false, Int.ofNat i, curly + 1,
        if pre ≠ -1 then elems ++ [⟨slice pattern pre.toNat i, [], false, none⟩] else elems)
    else
      .ok (false, pre, curly + 1, elems)
  else if c = '}' then
    if curly = 1 then
      match closeVar rc pattern pre i with
      | .error e => .error e
      | .ok elem =>
        match rest with
        | '*' :: _ => .ok (true, -1, curly - 1, elems ++ [{ elem with Greedy := true }])
        | _ => .ok (false, -1, curly - 1, elems ++ [elem])
    else
      .ok (false, pre, curly - 1, elems)
  else if c = '/' then
    if curly ≠ 0 then
      .ok (false, pre, curly, elems)
    else
      .ok (false, Int.ofNat i, curly,
        if pre ≠ -1 then elems ++ [⟨slice pattern pre.toNat i, [], false, none⟩] else elems)
  else
    if curly = 0 ∧ pre = -1 then
      .ok (false, Int.ofNat i, curly, elems)
    else
      .ok (false, pre, curly, elems)

/-- The loop of `Compile`, processing `rest = pattern.drop i`.  The state
is exactly Go's: `i` the current index, `pre` the start index of the
pending run (`-1` when none), `curly` the brace depth, `elems` the
elements emitted so far.  When an iteration consumed the following
character too, the loop advances by two (a skip past the end of the
string ends the loop, as in Go). -/
def compileLoop (rc : RegexCheck) (pattern : Chars) :
    Chars → Nat → Int → Int → List Element → Except CompileError (List Element)
  | [], _i, pre, curly, elems => compileFinish pattern pre curly elems
  | c :: rest, i, pre, curly, elems =>
    match compileStep rc pattern c rest i pre curly elems with
    | .error e => .error e
    | .ok (skip2, pre', curly', elems') =>
      if skip2 then
        match rest with
        | [] => compileFinish pattern pre' curly' elems'
        | _ :: rest' => compileLoop rc pattern rest' (i + 2) pre' curly' elems'
      else
        compileLoop rc pattern rest (i + 1) pre' curly' elems'

/-- The trailing pass of `Compile`: a constant element ending in `'*'`
becomes greedy with the `'*'` stripped. -/
def constGreedy (e : Element) : Element :=
  if e.VarName = [] ∧ e.Pattern ≠ [] then
    match e.Pattern.getLast? with
    | some '*' => { e with Greedy := true, Pattern := e.Pattern.dropLast }
    | _ => e
  else e

/-- `Compile` of `match.go`. -/
def Compile (rc : RegexCheck) (pattern : Chars) : Except CompileError PSection :=
  (compileLoop rc pattern pattern 0 (-1) 0 []).map (·.map constGreedy)

/-- The loop of `CompileSection`, splitting the element list into
sections; `i` and `pre` index into the full list `elems`. -/
def compileSectionLoop (elems : List Element) :
    List Element → Nat → Nat → List PSection → List PSection
  | [], _i, pre, sections =>
    if pre ≠ elems.length then sections ++ [elems.drop pre] else sections
  | elem :: rest, i, pre, sections =>
    if elem.VarName ≠ [] ∧ elem.Greedy then
      sections ++ [elems.drop pre]
    else if elem.VarName = [] ∧ hasPrefix elem.Pattern (cs "/") then
      if i ≠ pre then
        compileSectionLoop elems rest (i + 1) i (sections ++ [slice? elems pre i])
      else
        compileSectionLoop elems rest (i + 1) i sections
    else
      compileSectionLoop elems rest (i + 1) pre sections
where
  /-- `elems[pre:i]` on the element list. -/
  slice? (l : List Element) (a b : Nat) : List Element := (l.drop a).take (b - a)

/-- `CompileSection` of `match.go`. -/
def CompileSection (rc : RegexCheck) (patten : Chars) : Except CompileError (List PSection) :=
  (Compile rc patten).map (fun elems => compileSectionLoop elems elems 0 0 [])

/-- `Section.String()`: the concatenated element patterns. -/
def secString (s : PSection) : Chars := (s.map (·.Pattern)).flatten

/-- `Section.score()` of `match.go`: `+1` per greedy element, `+10` per
variable element, `+100` per non-variable element. -/
def score (s : PSection) : Nat :=
  s.foldl (fun acc v => acc + (if v.Greedy then 1 else 0) + (if v.VarName ≠ [] then 10 else 100)) 0

/-- `pre.Validate != nil && !pre.Validate.MatchString(s)`. -/
def validateFails (rm : RegexMatch) (v : Option Chars) (s : Chars) : Bool :=
  match v with
  | some re => ! rm re s
  | none => false

/-- The body of one iteration of the `Section.Match` element loop, after
the greedy join: the constant-element search/consume with the `pre`
variable close-out, or (for a variable element) just advancing `pre`.
`next` is the rest of the loop. -/
def sectionLoopBody (rm : RegexMatch)
    (next : Chars → List Chars → Element → Bindings →
      Option (Chars × List Chars × Element × Bindings))
    (elem : Element) (token : Chars) (lefttokens : List Chars) (pre : Element)
    (vars : Bindings) : Option (Chars × List Chars × Element × Bindings) :=
  if elem.VarName = [] then
    match strIndex token elem.Pattern with
    | none => none
    | some index =>
      if pre.VarName ≠ [] then
        let varmatch := token.take index
        if (varmatch = [] ∧ pre.VarName ≠ []) ∨
            validateFails rm pre.Validate varmatch = true then
          none
        else
          next (token.drop (index + elem.Pattern.length)) lefttokens elem
            (bset vars pre.VarName varmatch)
      else
        next (token.drop (index + elem.Pattern.length)) lefttokens elem vars
  else
    next token lefttokens elem vars

/-- The element loop of `Section.Match`; state `(token, lefttokens, pre,
vars)` as in Go, `none` for the early `return false, nil, nil`. -/
def sectionLoop (rm : RegexMatch) :
    List Element → Chars → List Chars → Element → Bindings →
    Option (Chars × List Chars × Element × Bindings)
  | [], token, lefttokens, pre, vars => some (token, lefttokens, pre, vars)
  | elem :: rest, token, lefttokens, pre, vars =>
    if elem.Greedy then
      sectionLoopBody rm (sectionLoop rm rest) elem ((token :: lefttokens).flatten) [] pre vars
    else
      sectionLoopBody rm (sectionLoop rm rest) elem token lefttokens pre vars

/-- `Section.Match` of `match.go`. -/
def secMatch (rm : RegexMatch) (s : PSection) (tokens : List Chars) :
    Bool × List Chars × Bindings :=
  match tokens with
  | [] => (false, tokens, [])
  | token :: lefttokens =>
    match sectionLoop rm s token lefttokens default [] with
    | none => (false, [], [])
    | some (token, lefttokens, pre, vars) =>
      -- unclosed const greedy
      let token := if pre.VarName = [] ∧ pre.Greedy then [] else token
      -- unclosed variable
      if pre.VarName ≠ [] then
        if validateFails rm pre.Validate token then
          (false, [], [])
        else
          (true, lefttokens, bset vars pre.VarName token)
      else if token ≠ [] then
        -- section left some chars
        (false, [], [])
      else
        (true, lefttokens, vars)

/-- The loop of `PathTokens`, processing `rest = path.drop i`. -/
def pathTokensLoop (path : Chars) :
    Chars → Nat → Nat → List Chars → List Chars × Nat
  | [], _i, pos, tokens => (tokens, pos)
  | c :: rest, i, pos, tokens =>
    if c = '/' then
      let tokens := if pos ≠ i then tokens ++ [slice path pos i] else tokens
      pathTokensLoop path rest (i + 1) i tokens
    else
      pathTokensLoop path rest (i + 1) pos tokens

/-- `PathTokens` of `match.go`: each token keeps its leading `'/'`. -/
def PathTokens (path : Chars) : List Chars :=
  let r := pathTokensLoop path path 0 0 []
  if r.2 ≠ path.length then r.1 ++ [path.drop r.2] else r.1

/-- `matchitem` of `match.go`. -/
structure MatchItem (T : Type) where
  pattern : Chars
  val : T
deriving DecidableEq, Repr

/-- `Tree` of `match.go`. -/
inductive Tree (T : Type) : Type where
  | mk : PSection → Option (MatchItem T) → List (Tree T) → Tree T
deriving Repr

instance {ε α : Type} [DecidableEq ε] [DecidableEq α] : DecidableEq (Except ε α)
  | .ok x, .ok y =>
    if h : x = y then .isTrue (by rw [h]) else .isFalse (by simp [h])
  | .ok _, .error _ => .isFalse (by simp)
  | .error _, .ok _ => .isFalse (by simp)
  | .error x, .error y =>
    if h : x = y then .isTrue (by rw [h]) else .isFalse (by simp [h])

namespace Tree

variable {T : Type}

def key : Tree T → PSection
  | .mk k _ _ => k

def val : Tree T → Option (MatchItem T)
  | .mk _ v _ => v

def children : Tree T → List (Tree T)
  | .mk _ _ c => c

end Tree

/-- The sort predicate of `Tree.Register`:
`func(a, b *Tree[T]) bool { return a.key.score() > b.key.score() }`. -/
def childLess {T : Type} (a b : Tree T) : Bool := score a.key > score b.key

/-- Insert into a list sorted descending by score, after all entries not
less than the new one (ties keep earlier entries first). -/
def insertSorted {T : Type} (x : Tree T) : List (Tree T) → List (Tree T)
  | [] => [x]
  | y :: ys => if childLess x y then x :: y :: ys else y :: insertSorted x ys

/-- `slices.SortFunc(children, less)`: the stable sort by descending
score.  (Go's sort is the insertion sort for the sibling-list sizes that
occur here, hence stable; this fold is that stable sort.) -/
def sortChildren {T : Type} (l : List (Tree T)) : List (Tree T) :=
  l.foldl (fun acc x => insertSorted x acc) []

/-- `Tree.indexChild`: index of the first child with the same
`key.String()`, `none` for Go's `-1`. -/
def indexChild {T : Type} (children : List (Tree T)) (key : PSection) : Option Nat :=
  match children with
  | [] => none
  | c :: rest =>
    if secString c.key = secString key then some 0
    else (indexChild rest key).map (· + 1)

/-- Registration error: a compile error, or the conflict error
`"pattern %s conflicts with exists %s"` (carrying both pattern texts). -/
inductive RegisterError where
  | compileErr (e : CompileError)
  | conflict (pattern existing : Chars)
deriving DecidableEq, Repr

/-- The section loop of `Tree.Register`, walking/creating one node per
section.  Go mutates nodes in place; here the updated child is written
back at its index, and the (tree, error) pair reflects all mutations
performed before an error, exactly as the Go receiver does.  A fresh
child is appended and the siblings re-sorted before descending; since the
sort looks only at keys, appending the fully-built child gives the same
sibling list. -/
def insertPath {T : Type} (pattern : Chars) (val : T) :
    List PSection → Tree T → Tree T × Option RegisterError
  | [], t => (t, none)
  | s :: rest, t =>
    match indexChild t.children s with
    | none =>
      if rest = [] then
        let child : Tree T := .mk s (some ⟨pattern, val⟩) []
        (.mk t.key t.val (sortChildren (t.children ++ [child])), none)
      else
        let r := insertPath pattern val rest (.mk s none [])
        (.mk t.key t.val (sortChildren (t.children ++ [r.1])), r.2)
    | some idx =>
      let child := t.children.getD idx (.mk [] none [])
      if rest = [] then
        match child.val with
        | some item => (t, some (.conflict pattern item.pattern))
        | none =>
          let child' : Tree T := .mk child.key (some ⟨pattern, val⟩) child.children
          (.mk t.key t.val (t.children.set idx child'), none)
      else
        let r := insertPath pattern val rest child
        (.mk t.key t.val (t.children.set idx r.1), r.2)

/-- `variables` of `match.go`: the declared variable names in order. -/
def patternVariables (sections : List PSection) : List Chars :=
  (sections.flatten.filter (fun e => e.VarName ≠ [])).map (·.VarName)

/-- `Tree.Register` of `match.go`; the second component is the tree after
the call (unchanged when the call fails, which is proved, not assumed). -/
def Tree.Register {T : Type} (rc : RegexCheck) (n : Tree T) (pattern : Chars) (val : T) :
    Except RegisterError (List Chars) × Tree T :=
  match CompileSection rc pattern with
  | .error e => (.error (.compileErr e), n)
  | .ok sections =>
    match insertPath pattern val sections n with
    | (t', some err) => (.error err, t')
    | (t', none) => (.ok (patternVariables sections), t')

/-- The child loop of `matchchildren`; `descend` is the recursive call on
the child with the leftover tokens.  Faithful to Go: a matching child's
section variables are copied into `vars` before anything else; if the
child consumed the last token its value is returned at once (even when it
is `nil`); a failed descent falls through to the next sibling. -/
def tryChildren {T : Type}
    (rm : RegexMatch)
    (descend : Tree T → List Chars → Bindings → Option (MatchItem T) × Bindings) :
    List (Tree T) → List Chars → Bindings → Option (MatchItem T) × Bindings
  | [], _tokens, vars => (none, vars)
  | child :: rest, tokens, vars =>
    match secMatch rm child.key tokens with
    | (true, lefttokens, secvars) =>
      let vars := bcopy vars secvars
      if lefttokens = [] then
        (child.val, vars)
      else
        match descend child lefttokens secvars with
        | (some result, secvars') => (some result, bcopy vars secvars')
        | (none, _) => tryChildren rm descend rest tokens vars
    | (false, _, _) => tryChildren rm descend rest tokens vars

/-- `matchchildren` of `match.go`.  The fuel is the explicit form of the
termination argument (leftover tokens are strictly fewer); with fuel
`tokens.length` the zero-fuel branch is reached only with `tokens = []`,
where it coincides with Go's empty-token return. -/
def matchchildren {T : Type} (rm : RegexMatch) :
    Nat → Tree T → List Chars → Bindings → Option (MatchItem T) × Bindings
  | 0, _cur, _tokens, vars => (none, vars)
  | fuel + 1, cur, tokens, vars =>
    if tokens = [] then (none, vars)
    else tryChildren rm (matchchildren rm fuel) cur.children tokens vars

/-- `Tree.Match` of `match.go`: `none` value stands for Go's zero `T`. -/
def Tree.Match {T : Type} (rm : RegexMatch) (n : Tree T) (path : Chars) :
    Bool × Option T × Bindings :=
  let tokens := PathTokens path
  match matchchildren rm tokens.length n tokens [] with
  | (none, vars) => (false, none, vars)
  | (some m, vars) => (true, some m.val, vars)

/-- The zero `Tree[T]{}` that `NewMatcher` returns. -/
def emptyTree (T : Type) : Tree T := .mk [] none []

/-- Register a pattern, keeping only the resulting tree. -/
def regT (t : Tree Nat) (p : String) (v : Nat) : Tree Nat :=
  (Tree.Register rcAll t (cs p) v).2

/-! ### Concrete instances used by individual claims -/

/-- `/{x} ↦ 1`, `/api ↦ 2`. -/
def c1tree : Tree Nat := regT (regT (emptyTree Nat) "/{x}" 1) "/api" 2

/-- `/api/v{version}* ↦ 1`, `/api/{version} ↦ 2`. -/
def c2tree : Tree Nat := regT (regT (emptyTree Nat) "/api/v{version}*" 1) "/api/{version}" 2

/-- `/api/v1 ↦ 1`, `/api/{version} ↦ 2`, `/api/v{version}* ↦ 3`. -/
def c3atree : Tree Nat :=
  regT (regT (regT (emptyTree Nat) "/api/v1" 1) "/api/{version}" 2) "/api/v{version}*" 3

/-- `/v1/{group}/{version}/{resource}/{name} ↦ 1`,
`/v1/{group}/{version}/configmap/{name} ↦ 2`. -/
def c3btree : Tree Nat :=
  regT (regT (emptyTree Nat) "/v1/{group}/{version}/{resource}/{name}" 1)
    "/v1/{group}/{version}/configmap/{name}" 2

/-- `/ab{x}cd/y ↦ 1`, `/{p} ↦ 2`. -/
def c4tree : Tree Nat := regT (regT (emptyTree Nat) "/ab{x}cd/y" 1) "/{p}" 2

/-- `/{p} ↦ 2` alone. -/
def c4sib : Tree Nat := regT (emptyTree Nat) "/{p}" 2

/-- `/api/{path}* ↦ 7` alone. -/
def c5tree : Tree Nat := regT (emptyTree Nat) "/api/{path}*" 7

/-- `/a{x}/zz ↦ 1`, `/{y}/w ↦ 2`. -/
def c6tree : Tree Nat := regT (regT (emptyTree Nat) "/a{x}/zz" 1) "/{y}/w" 2

/-- `/{x}/{x} ↦ 5` alone. -/
def c6shadow : Tree Nat := regT (emptyTree Nat) "/{x}/{x}" 5

/-- `/{n}/x{n}q/zz ↦ 1`, `/{n}/{m}/ok ↦ 2`: both patterns share the root
section `/{n}`; under it the more literal sibling `/x{n}q` (score 210)
sorts before `/{m}` (score 110). -/
def c6over : Tree Nat := regT (regT (emptyTree Nat) "/{n}/x{n}q/zz" 1) "/{n}/{m}/ok" 2

/-- `/{a} ↦ 1` alone. -/
def c7tree : Tree Nat := regT (emptyTree Nat) "/{a}" 1

/-- The node `/ab{x}cd` (no value) with terminal child `/y ↦ 1`, as
built by registering `/ab{x}cd/y`. -/
def c4child1 : Tree Nat :=
  Tree.mk [⟨cs "/ab", [], false, none⟩, ⟨cs "{x}", cs "x", false, none⟩,
      ⟨cs "cd", [], false, none⟩]
    none [Tree.mk [⟨cs "/y", [], false, none⟩] (some ⟨cs "/ab{x}cd/y", 1⟩) []]

/-- The terminal node `/{p} ↦ 2`. -/
def c4child2 : Tree Nat :=
  Tree.mk [⟨cs "/", [], false, none⟩, ⟨cs "{p}", cs "p", false, none⟩]
    (some ⟨cs "/{p}", 2⟩) []

/-- The chain of nodes that registering a pattern into a node with no
children builds: one node per section, the value at the last one. -/
def mkChain {T : Type} (pattern : Chars) (val : T) (s : PSection) :
    List PSection → Tree T
  | [] => .mk s (some ⟨pattern, val⟩) []
  | s' :: rest => .mk s none [mkChain pattern val s' rest]

/-- The representative whole-segment route pattern used by the amended
C1: a literal head section followed by two variable sections. -/
def c1pat : Chars := cs "/api/{name}/{path}"

/-! ## Theorems -/

/-- A node without children never matches. -/
theorem matchchildren_no_children {T : Type} (rm : RegexMatch) (fuel : Nat) (k : PSection)
    (v : Option (MatchItem T)) (tokens : List Chars) (vars : Bindings) :
    matchchildren rm fuel (Tree.mk k v ([] : List (Tree T))) tokens vars = (none, vars) := by
  cases fuel with
  | zero => rfl
  | succ n =>
    cases tokens with
    | nil => rfl
    | cons a as => rfl

/-- C1, counterexample.  The claim requires `Match` on a path literally
matching a registered pattern's skeleton to return that pattern's value
regardless of which other patterns are registered.  With `/{x} ↦ 1` and
`/api ↦ 2` registered, the path `/api` (the skeleton of `/api`) returns
value `1` (the sibling `/{x}` outranks `/api` under the code's score
ordering), not `2` as the claim demands. -/
theorem C1_counterexample :
    Tree.Match rmAll c1tree (cs "/api") = (true, some 1, [(cs "x", cs "api")]) ∧
    (1 : Nat) ≠ 2 := by decide

/-- C2, evaluation of the code at the failing input.  The claim (and the
repository's own `TestSection_score`) requires any Section ending in a
greedy Element to be ordered after all non-greedy Sections, with score
`100·literals − 1·variables`.  The code's `score` instead *adds* `1` for
greedy and `10` per variable element, so `v{a}*` scores 111 and `{a}`
scores 10, and after registering `/api/v{version}*` and `/api/{version}`
the greedy-ending Section is sorted *first* at the `/api` level. -/
theorem C2_code_evaluation :
    (Compile rcAll (cs "v{a}*")).map score = .ok 111 ∧
    (Compile rcAll (cs "{a}")).map score = .ok 10 ∧
    (c2tree.children.headD (emptyTree Nat)).children.map (fun c => secString c.key) =
      [cs "/v{version}", cs "/{version}"] ∧
    (c2tree.children.headD (emptyTree Nat)).children.map
      (fun c => c.key.getLast?.map (·.Greedy)) = [some true, some false] := by decide

/-- C3, evaluation of the code at the failing inputs.  The claim (and the
repository's own `Test_matcher_Match`) requires `/api/v1` to win for path
`/api/v1`, and the configmap pattern (value 2) to win for
`/v1/core/v1/configmap/abc` with bindings `group`,`version`,`name`.  The
code returns the greedy pattern's value 3 for the first, and the
all-variable pattern's value 1 with an extra `resource` binding for the
second, because variable Sections outscore shorter literal Sections. -/
theorem C3_code_evaluation :
    Tree.Match rmAll c3atree (cs "/api/v1") = (true, some 3, [(cs "version", cs "1")]) ∧
    Tree.Match rmAll c3btree (cs "/v1/core/v1/configmap/abc") =
      (true, some 1, [(cs "group", cs "core"), (cs "version", cs "v1"),
        (cs "resource", cs "configmap"), (cs "name", cs "abc")]) := by decide

/-- C4, counterexample.  With `/ab{x}cd/y ↦ 1` and `/{p} ↦ 2` registered,
the child `/ab{x}cd` (score 210, no value) matches the whole single token
`/abZcd`, and `matchchildren` returns its nil value immediately instead
of trying the sibling `/{p}`, so `Match` returns `matched=false` even
though the sibling branch alone produces a complete match with value 2 —
contradicting the claim that a failed branch never hides a later
sibling's complete match. -/
theorem C4_counterexample :
    Tree.Match rmAll c4tree (cs "/abZcd") = (false, none, [(cs "x", cs "Z")]) ∧
    Tree.Match rmAll c4sib (cs "/abZcd") = (true, some 2, [(cs "p", cs "abZcd")]) := by decide

/-- A successful loop body calls the rest of the loop with the same
leftover tokens, `pre := elem`, and bindings grown at most by one
non-empty capture for `pre.VarName`. -/
theorem sectionLoopBody_some {rm : RegexMatch}
    {next : Chars → List Chars → Element → Bindings →
      Option (Chars × List Chars × Element × Bindings)}
    {elem : Element} {token : Chars} {left : List Chars} {pre : Element} {vars : Bindings}
    {r : Chars × List Chars × Element × Bindings}
    (h : sectionLoopBody rm next elem token left pre vars = some r) :
    ∃ token' vars', next token' left elem vars' = some r ∧
      (vars' = vars ∨ ∃ w, w ≠ [] ∧ vars' = bset vars pre.VarName w) := by
  unfold sectionLoopBody at h
  split at h
  · simp only [] at h
    split at h
    · exact absurd h (by simp)
    · split at h
      · rename_i hpre
        split at h
        · exact absurd h (by simp)
        · rename_i hcond
          exact ⟨_, _, h, Or.inr ⟨List.take _ token, fun hnil => hcond (Or.inl ⟨hnil, hpre⟩), rfl⟩⟩
      · exact ⟨_, _, h, Or.inl rfl⟩
  · exact ⟨_, _, h, Or.inl rfl⟩

/-- The element loop either keeps the leftover-token list or empties it
(the only assignment to `lefttokens` is the greedy join, to `[]`). -/
theorem sectionLoop_left (rm : RegexMatch) (elems : List Element) :
    ∀ token left pre vars r, sectionLoop rm elems token left pre vars = some r →
      r.2.1 = left ∨ r.2.1 = [] := by
  induction elems with
  | nil =>
    intro token left pre vars r h
    simp only [sectionLoop] at h
    injection h with h
    exact Or.inl (by rw [← h])
  | cons e rest ih =>
    intro token left pre vars r h
    simp only [sectionLoop] at h
    split at h
    · obtain ⟨t', v', hnext, -⟩ := sectionLoopBody_some h
      exact Or.inr ((ih _ _ _ _ _ hnext).elim id id)
    · obtain ⟨t', v', hnext, -⟩ := sectionLoopBody_some h
      exact ih _ _ _ _ _ hnext

/-- If some element of the section is greedy, a completed element loop
has emptied the leftover-token list. -/
theorem sectionLoop_left_greedy (rm : RegexMatch) :
    ∀ (elems : List Element) (token : Chars) (left : List Chars) (pre : Element)
      (vars : Bindings) (r : Chars × List Chars × Element × Bindings),
      (∃ e ∈ elems, e.Greedy = true) →
      sectionLoop rm elems token left pre vars = some r → r.2.1 = [] := by
  intro elems
  induction elems with
  | nil => intro _ _ _ _ _ hg _; exact absurd hg (by simp)
  | cons e rest ih =>
    intro token left pre vars r hg h
    simp only [sectionLoop] at h
    split at h
    · obtain ⟨t', v', hnext, -⟩ := sectionLoopBody_some h
      exact (sectionLoop_left rm rest _ _ _ _ _ hnext).elim id id
    · rename_i hng
      rcases hg with ⟨e', he', hge'⟩
      rcases List.mem_cons.mp he' with he | he
      · exact absurd (he ▸ hge') hng
      · obtain ⟨t', v', hnext, -⟩ := sectionLoopBody_some h
        exact ih _ _ _ _ _ ⟨e', he, hge'⟩ hnext

/-- C5.  With `/api/{path}* ↦ 7` registered, matching `/api/v1/g/v/k`
succeeds with value 7 and `path ↦ "v1/g/v/k"` (the greedy variable
absorbs the remainder of its token and all later tokens, separators
included); and in general a successful `Section.Match` of a section
containing a greedy element reports no leftover tokens, so the descent
stops at that node. -/
theorem C5_theorem :
    Tree.Match rmAll c5tree (cs "/api/v1/g/v/k") =
      (true, some 7, [(cs "path", cs "v1/g/v/k")]) ∧
    ∀ (rm : RegexMatch) (s : PSection) (tokens left : List Chars) (m : Bindings),
      (∃ e ∈ s, e.Greedy = true) → secMatch rm s tokens = (true, left, m) → left = [] := by
  refine ⟨by decide, ?_⟩
  intro rm s tokens left m hg h
  cases tokens with
  | nil => simp [secMatch] at h
  | cons tok lt =>
    simp only [secMatch] at h
    cases hl : sectionLoop rm s tok lt default [] with
    | none => rw [hl] at h; simp at h
    | some r =>
      rw [hl] at h
      obtain ⟨token', left', pre', vars'⟩ := r
      have hleft : left' = [] := sectionLoop_left_greedy rm s tok lt default [] _ hg hl
      try simp only [] at h
      repeat' split at h
      all_goals try (rw [Prod.mk.injEq, Prod.mk.injEq] at h; rw [← h.2.1]; exact hleft)
      all_goals exact absurd h (by simp)

/-- C5, witness for the general conjunct. -/
theorem C5_witness :
    (∃ e ∈ [(⟨[], [], true, none⟩ : Element)], e.Greedy = true) ∧
    secMatch rmAll [(⟨[], [], true, none⟩ : Element)] [cs "a", cs "b"] = (true, [], []) ∧
    ([] : List Chars) = [] := by
  refine ⟨⟨⟨[], [], true, none⟩, by decide, rfl⟩, by decide, ?_⟩
  exact C5_theorem.2 rmAll [⟨[], [], true, none⟩] [cs "a", cs "b"] [] []
    ⟨⟨[], [], true, none⟩, by decide, rfl⟩ (by decide)

/-- Every entry of `bset m k v` is `(k, v)` or an entry of `m`. -/
theorem bset_mem {m : Bindings} {k v : Chars} :
    ∀ kv ∈ bset m k v, kv = (k, v) ∨ kv ∈ m := by
  induction m with
  | nil =>
    intro kv h
    simp only [bset, List.mem_singleton] at h
    exact Or.inl h
  | cons p rest ih =>
    obtain ⟨k', v'⟩ := p
    intro kv h
    simp only [bset] at h
    split at h
    · rcases List.mem_cons.mp h with h | h
      · exact Or.inl h
      · exact Or.inr (List.mem_cons_of_mem _ h)
    · rcases List.mem_cons.mp h with h | h
      · exact Or.inr (h ▸ List.mem_cons_self _ _)
      · rcases ih kv h with h' | h'
        · exact Or.inl h'
        · exact Or.inr (List.mem_cons_of_mem _ h')

/-- A successful lookup is a member. -/
theorem blookup_mem {m : Bindings} {k v : Chars} (h : blookup m k = some v) : (k, v) ∈ m := by
  induction m with
  | nil => simp [blookup] at h
  | cons p rest ih =>
    obtain ⟨k', v'⟩ := p
    simp only [blookup] at h
    split at h
    · rename_i heq
      injection h with h
      rw [← heq, ← h]
      exact List.mem_cons_self _ _
    · exact List.mem_cons_of_mem _ (ih h)

/-- Looking up the key just set. -/
theorem blookup_bset_self (m : Bindings) (k v : Chars) :
    blookup (bset m k v) k = some v := by
  induction m with
  | nil => simp [bset, blookup]
  | cons p rest ih =>
    obtain ⟨k', v'⟩ := p
    simp only [bset]
    split
    · simp [blookup]
    · rename_i hne
      simp only [blookup]
      rw [if_neg hne]
      exact ih

/-- Looking up another key after a set. -/
theorem blookup_bset_ne (m : Bindings) (k v k' : Chars) (hne : k' ≠ k) :
    blookup (bset m k v) k' = blookup m k' := by
  induction m with
  | nil =>
    simp only [bset, blookup]
    rw [if_neg (fun h => hne h.symm)]
  | cons p rest ih =>
    obtain ⟨k1, v1⟩ := p
    simp only [bset]
    split
    · rename_i heq
      simp only [blookup]
      rw [if_neg (fun h => hne h.symm), heq, if_neg (fun h => hne h.symm)]
    · simp only [blookup]
      by_cases hk1 : k1 = k'
      · rw [if_pos hk1, if_pos hk1]
      · rw [if_neg hk1, if_neg hk1]
        exact ih

/-- The element loop only adds non-empty captures to the bindings. -/
theorem sectionLoop_vars_nonempty (rm : RegexMatch) (elems : List Element) :
    ∀ token left pre vars r, (∀ kv ∈ vars, kv.2 ≠ []) →
      sectionLoop rm elems token left pre vars = some r →
      ∀ kv ∈ r.2.2.2, kv.2 ≠ [] := by
  induction elems with
  | nil =>
    intro token left pre vars r hv h
    simp only [sectionLoop] at h
    injection h with h
    rw [← h]
    exact hv
  | cons e rest ih =>
    intro token left pre vars r hv h
    simp only [sectionLoop] at h
    split at h
    all_goals
      obtain ⟨t', v', hnext, hgrow⟩ := sectionLoopBody_some h
      rcases hgrow with rfl | ⟨w, hw, rfl⟩
      · exact ih _ _ _ _ _ hv hnext
      · refine ih _ _ _ _ _ ?_ hnext
        intro kv hkv
        rcases bset_mem kv hkv with rfl | hkv'
        · exact hw
        · exact hv kv hkv'

/-- After the element loop, `pre` is the last element of the section (or
the initial `pre` for the empty section). -/
theorem sectionLoop_pre (rm : RegexMatch) (elems : List Element) :
    ∀ token left pre vars r, sectionLoop rm elems token left pre vars = some r →
      r.2.2.1 = elems.getLastD pre := by
  induction elems with
  | nil =>
    intro token left pre vars r h
    simp only [sectionLoop] at h
    injection h with h
    rw [← h]
    rfl
  | cons e rest ih =>
    intro token left pre vars r h
    simp only [sectionLoop] at h
    rw [List.getLastD_cons]
    split at h
    all_goals
      obtain ⟨t', v', hnext, -⟩ := sectionLoopBody_some h
      exact ih _ _ _ _ _ hnext

/-- C7, amended.  An empty capture can only be produced for the variable
that is the *final* element of its section (the close-out of an
unterminated variable at the end of the head token); any variable closed
by a following literal element captures at least one character, as the
claim states. -/
theorem C7_amended (rm : RegexMatch) (s : PSection) (tokens left : List Chars)
    (m : Bindings) (k : Chars)
    (h : secMatch rm s tokens = (true, left, m)) (hk : blookup m k = some []) :
    ∃ e, s.getLast? = some e ∧ e.VarName = k := by
  cases tokens with
  | nil => simp [secMatch] at h
  | cons tok lt =>
    simp only [secMatch] at h
    cases hl : sectionLoop rm s tok lt default [] with
    | none => rw [hl] at h; simp at h
    | some r =>
      rw [hl] at h
      obtain ⟨token', left', pre', vars'⟩ := r
      have hpre : pre' = s.getLastD default :=
        sectionLoop_pre rm s tok lt default [] _ hl
      have hinv : ∀ kv ∈ vars', kv.2 ≠ [] :=
        sectionLoop_vars_nonempty rm s tok lt default [] _ (by simp) hl
      have h : (if pre'.VarName ≠ [] then
            if validateFails rm pre'.Validate
                (if pre'.VarName = [] ∧ pre'.Greedy = true then [] else token') = true then
              ((false, [], []) : Bool × List Chars × Bindings)
            else (true, left', bset vars' pre'.VarName
                (if pre'.VarName = [] ∧ pre'.Greedy = true then [] else token'))
          else
            if (if pre'.VarName = [] ∧ pre'.Greedy = true then [] else token') ≠ [] then
              ((false, [], []) : Bool × List Chars × Bindings)
            else (true, left', vars')) = (true, left, m) := h
      by_cases hpv : pre'.VarName ≠ []
      · -- pre'.VarName ≠ [] : m = bset vars' pre'.VarName token''
        rw [if_neg (show ¬(pre'.VarName = [] ∧ pre'.Greedy = true) from fun hc => hpv hc.1),
          if_pos hpv] at h
        by_cases hvf : validateFails rm pre'.Validate token' = true
        · rw [if_pos hvf] at h
          exact absurd h (by simp)
        · rw [if_neg hvf] at h
          rw [Prod.mk.injEq, Prod.mk.injEq] at h
          by_cases hkk : k = pre'.VarName
          · cases hgl : s.getLast? with
            | none =>
              rw [List.getLast?_eq_none_iff] at hgl
              rw [hgl] at hpre
              exact absurd (hpre ▸ rfl : pre'.VarName = []) hpv
            | some e =>
              refine ⟨e, rfl, ?_⟩
              have he : pre' = e := by
                rw [hpre, List.getLastD_eq_getLast?, hgl]
                rfl
              rw [← he, hkk]
          · rw [← h.2.2, blookup_bset_ne _ _ _ _ hkk] at hk
            exact absurd (blookup_mem hk) (fun hmem => hinv _ hmem rfl)
      · -- pre'.VarName = [] : m = vars', all entries non-empty
        rw [if_neg hpv] at h
        by_cases hta : (if pre'.VarName = [] ∧ pre'.Greedy = true then [] else token') ≠ []
        · rw [if_pos hta] at h
          exact absurd h (by simp)
        · rw [if_neg hta] at h
          rw [Prod.mk.injEq, Prod.mk.injEq] at h
          rw [← h.2.2] at hk
          exact absurd (blookup_mem hk) (fun hmem => hinv _ hmem rfl)

/-- C7, witness: the amended theorem applied to `/{a}` matching the
token `/`, where the final-element variable `a` captures the empty
string. -/
theorem C7_amended_witness :
    secMatch rmAll [⟨cs "/", [], false, none⟩, ⟨cs "{a}", cs "a", false, none⟩] [cs "/"] =
      (true, [], [(cs "a", [])]) ∧
    blookup [(cs "a", ([] : Chars))] (cs "a") = some [] ∧
    ∃ e, ([⟨cs "/", [], false, none⟩, ⟨cs "{a}", cs "a", false, none⟩] :
        PSection).getLast? = some e ∧ e.VarName = cs "a" :=
  ⟨by decide, by decide,
    C7_amended rmAll [⟨cs "/", [], false, none⟩, ⟨cs "{a}", cs "a", false, none⟩]
      [cs "/"] [] [(cs "a", [])] (cs "a") (by decide) (by decide)⟩

/-- C4, amended.  At every level: a child whose Section matched with
tokens left over and whose subtree then produced no result is skipped in
favour of the following siblings (with its section bindings already
merged), so deeper failure alone never hides a later sibling; but a
child whose Section consumed the final token ends the search immediately
with that child's value — even when that value is absent — without
trying later siblings. -/
theorem C4_amended {T : Type} (rm : RegexMatch) (fuel : Nat)
    (k : PSection) (v : Option (MatchItem T)) (c : Tree T) (rest : List (Tree T))
    (tokens : List Chars) (vars : Bindings) (left : List Chars) (sv : Bindings)
    (htok : tokens ≠ [])
    (hm : secMatch rm c.key tokens = (true, left, sv)) :
    (left = [] →
      matchchildren rm (fuel + 1) (.mk k v (c :: rest)) tokens vars = (c.val, bcopy vars sv)) ∧
    (left ≠ [] → (matchchildren rm fuel c left sv).1 = none →
      matchchildren rm (fuel + 1) (.mk k v (c :: rest)) tokens vars =
        matchchildren rm (fuel + 1) (.mk k v rest) tokens (bcopy vars sv)) := by
  constructor
  · intro hleft
    simp only [matchchildren, Tree.children]
    rw [if_neg htok]
    simp only [tryChildren, hm, hleft]
    rfl
  · intro hleft hnone
    simp only [matchchildren, Tree.children]
    rw [if_neg htok, if_neg htok]
    simp only [tryChildren, hm]
    rw [if_neg hleft]
    cases hmc : matchchildren rm fuel c left sv with
    | mk o sv' =>
      rw [hmc] at hnone
      cases o with
      | some r => exact absurd hnone (by simp)
      | none => rfl

/-- C4, witness: both conclusions of the amended theorem at the
counterexample's trees.  First: the valueless child `/ab{x}cd` consumes
the only token `/abZcd`, and the level returns its `none` value at once.
Second: on tokens `/abZcd`, `/w` the same child leaves `/w` over, its
subtree fails, and the search continues with the sibling list `[/{p}]`. -/
theorem C4_amended_witness :
    (([cs "/abZcd"] : List Chars) ≠ [] ∧
      secMatch rmAll c4child1.key [cs "/abZcd"] = (true, [], [(cs "x", cs "Z")]) ∧
      matchchildren rmAll 1 (Tree.mk [] none [c4child1, c4child2]) [cs "/abZcd"] [] =
        (c4child1.val, bcopy [] [(cs "x", cs "Z")])) ∧
    (([cs "/abZcd", cs "/w"] : List Chars) ≠ [] ∧
      secMatch rmAll c4child1.key [cs "/abZcd", cs "/w"] =
        (true, [cs "/w"], [(cs "x", cs "Z")]) ∧
      (matchchildren rmAll 1 c4child1 [cs "/w"] [(cs "x", cs "Z")]).1 = none ∧
      matchchildren rmAll 2 (Tree.mk [] none [c4child1, c4child2]) [cs "/abZcd", cs "/w"] [] =
        matchchildren rmAll 2 (Tree.mk [] none [c4child2]) [cs "/abZcd", cs "/w"]
          (bcopy [] [(cs "x", cs "Z")])) :=
  ⟨⟨by decide, by decide,
    (C4_amended rmAll 0 [] none c4child1 [c4child2] [cs "/abZcd"] [] [] [(cs "x", cs "Z")]
      (by decide) (by decide)).1 rfl⟩,
   ⟨by decide, by decide, by decide,
    (C4_amended rmAll 1 [] none c4child1 [c4child2] [cs "/abZcd", cs "/w"] [] [cs "/w"]
      [(cs "x", cs "Z")] (by decide) (by decide)).2 (by decide) (by decide)⟩⟩

/-- C6, counterexample.  With `/a{x}/zz ↦ 1` and `/{y}/w ↦ 2` registered,
matching `/ab/w` succeeds through `/{y}/w` (value 2, binding `y`), but
the returned bindings also contain `x ↦ "b"` — leaked from the sibling
branch `/a{x}` which matched the head token and then failed deeper — so
the bindings are not exactly those of the successful path. -/
theorem C6_counterexample :
    Tree.Match rmAll c6tree (cs "/ab/w") =
      (true, some 2, [(cs "x", cs "b"), (cs "y", cs "ab")]) ∧
    blookup (Tree.Match rmAll c6tree (cs "/ab/w")).2.2 (cs "x") = some (cs "b") := by decide

/-- A `bset` never removes keys: a key present before is present after. -/
theorem blookup_bset_isSome (m : Bindings) (k k' v : Chars)
    (h : (blookup m k).isSome = true) : (blookup (bset m k' v) k).isSome = true := by
  by_cases hk : k' = k
  · subst hk
    rw [blookup_bset_self]
    rfl
  · rw [blookup_bset_ne m k' v k (fun he => hk he.symm)]
    exact h

/-- `maps.Copy` never removes keys of the destination. -/
theorem blookup_bcopy_isSome : (s d : Bindings) → (k : Chars) →
    (blookup d k).isSome = true → (blookup (bcopy d s) k).isSome = true
  | [], _, _, h => h
  | kv :: s, d, k, h =>
    blookup_bcopy_isSome s (bset d kv.1 kv.2) k (blookup_bset_isSome d k kv.1 kv.2 h)

/-- A key absent from the source is untouched by `maps.Copy`. -/
theorem blookup_bcopy_not_src : (s d : Bindings) → (k : Chars) →
    k ∉ s.map Prod.fst → blookup (bcopy d s) k = blookup d k
  | [], _, _, _ => rfl
  | (k', v') :: s, d, k, hk => by
    show blookup (bcopy (bset d k' v') s) k = blookup d k
    rw [blookup_bcopy_not_src s (bset d k' v') k (fun hm => hk (by simp [hm]))]
    exact blookup_bset_ne d k' v' k (fun he => hk (by simp [he]))

/-- The copied (more recently bound) value wins: for a source with
distinct keys, lookups in `maps.Copy dst src` agree with `src` on the
keys of `src`. -/
theorem blookup_bcopy_src : (s d : Bindings) → (k w : Chars) →
    (s.map Prod.fst).Nodup → blookup s k = some w →
    blookup (bcopy d s) k = some w
  | [], _, _, _, _, hl => by simp [blookup] at hl
  | (k', v') :: s, d, k, w, hnd, hl => by
    have h0 : blookup ((k', v') :: s) k = if k' = k then some v' else blookup s k := rfl
    rw [h0] at hl
    have hnd' : k' ∉ s.map Prod.fst ∧ (s.map Prod.fst).Nodup := by
      rw [List.map_cons, List.nodup_cons] at hnd
      exact hnd
    by_cases hk : k' = k
    · rw [if_pos hk] at hl
      show blookup (bcopy (bset d k' v') s) k = some w
      rw [blookup_bcopy_not_src s (bset d k' v') k (hk ▸ hnd'.1), ← hk, blookup_bset_self]
      exact hl
    · rw [if_neg hk] at hl
      show blookup (bcopy (bset d k' v') s) k = some w
      exact blookup_bcopy_src s (bset d k' v') k w hnd'.2 hl

/-- One step of the `tryChildren` loop. -/
theorem tryChildren_cons {T : Type} (rm : RegexMatch)
    (descend : Tree T → List Chars → Bindings → Option (MatchItem T) × Bindings)
    (child : Tree T) (rest : List (Tree T)) (tokens : List Chars) (vars : Bindings) :
    tryChildren rm descend (child :: rest) tokens vars =
      match secMatch rm child.key tokens with
      | (true, lefttokens, secvars) =>
        if lefttokens = [] then (child.val, bcopy vars secvars)
        else
          match descend child lefttokens secvars with
          | (some result, secvars') => (some result, bcopy (bcopy vars secvars) secvars')
          | (none, _) => tryChildren rm descend rest tokens (bcopy vars secvars)
      | (false, _, _) => tryChildren rm descend rest tokens vars := rfl

/-- The step of `tryChildren` at a child whose section matches. -/
theorem tryChildren_cons_true {T : Type} (rm : RegexMatch)
    (descend : Tree T → List Chars → Bindings → Option (MatchItem T) × Bindings)
    (child : Tree T) (rest : List (Tree T)) (tokens lefttokens : List Chars)
    (vars secvars : Bindings)
    (hsec : secMatch rm child.key tokens = (true, lefttokens, secvars)) :
    tryChildren rm descend (child :: rest) tokens vars =
      if lefttokens = [] then (child.val, bcopy vars secvars)
      else
        match descend child lefttokens secvars with
        | (some result, secvars') => (some result, bcopy (bcopy vars secvars) secvars')
        | (none, _) => tryChildren rm descend rest tokens (bcopy vars secvars) := by
  rw [tryChildren_cons, hsec]

/-- The step of `tryChildren` at a child whose section does not match. -/
theorem tryChildren_cons_false {T : Type} (rm : RegexMatch)
    (descend : Tree T → List Chars → Bindings → Option (MatchItem T) × Bindings)
    (child : Tree T) (rest : List (Tree T)) (tokens : List Chars) (vars : Bindings)
    (lt : List Chars) (sv : Bindings)
    (hsec : secMatch rm child.key tokens = (false, lt, sv)) :
    tryChildren rm descend (child :: rest) tokens vars
      = tryChildren rm descend rest tokens vars := by
  rw [tryChildren_cons, hsec]

/-- `tryChildren` never drops a key of the accumulated bindings,
whatever the descent function returns. -/
theorem tryChildren_keeps {T : Type} (rm : RegexMatch)
    (descend : Tree T → List Chars → Bindings → Option (MatchItem T) × Bindings) :
    (children : List (Tree T)) → (tokens : List Chars) → (vars : Bindings) → (k : Chars) →
    (blookup vars k).isSome = true →
    (blookup (tryChildren rm descend children tokens vars).2 k).isSome = true
  | [], _, _, _, h => h
  | child :: rest, tokens, vars, k, h => by
    rcases hsec : secMatch rm child.key tokens with ⟨b, lefttokens, secvars⟩
    cases b
    · rw [tryChildren_cons_false rm descend child rest tokens vars lefttokens secvars hsec]
      exact tryChildren_keeps rm descend rest tokens vars k h
    · rw [tryChildren_cons_true rm descend child rest tokens lefttokens vars secvars hsec]
      by_cases hlt : lefttokens = []
      · rw [if_pos hlt]
        exact blookup_bcopy_isSome secvars vars k h
      · rw [if_neg hlt]
        rcases hd : descend child lefttokens secvars with ⟨r, secvars'⟩
        cases r
        · exact tryChildren_keeps rm descend rest tokens (bcopy vars secvars) k
            (blookup_bcopy_isSome secvars vars k h)
        · exact blookup_bcopy_isSome secvars' (bcopy vars secvars) k
            (blookup_bcopy_isSome secvars vars k h)

/-- `matchchildren` never drops a key of the accumulated bindings. -/
theorem matchchildren_keeps {T : Type} (rm : RegexMatch) :
    (fuel : Nat) → (t : Tree T) → (tokens : List Chars) → (vars : Bindings) → (k : Chars) →
    (blookup vars k).isSome = true →
    (blookup (matchchildren rm fuel t tokens vars).2 k).isSome = true
  | 0, _, _, _, _, h => h
  | fuel + 1, t, tokens, vars, k, h => by
    show (blookup (if tokens = [] then ((none : Option (MatchItem T)), vars)
        else tryChildren rm (matchchildren rm fuel) t.children tokens vars).2 k).isSome = true
    by_cases ht : tokens = []
    · rw [if_pos ht]
      exact h
    · rw [if_neg ht]
      exact tryChildren_keeps rm (matchchildren rm fuel) t.children tokens vars k h

/-- C6 (amended).  The spec's exactness is doubly false: bindings of
sibling branches that matched part-way and then failed are retained
(counterexample above), and such a branch can even overwrite the
successful path's own value for a name: in `c6over`
(`/{n}/x{n}q/zz ↦ 1`, `/{n}/{m}/ok ↦ 2`), the successful path's root
section binds `n ↦ "foo"` on `/foo/xbarq/ok`, yet `Match` returns
value 2 with `n ↦ "bar"`, the binding of the failed sibling `/x{n}q`.
What does hold, generally: (a) names are never dropped — any binding
present when a level of `matchchildren` starts is still present, as a
key, in the returned bindings, whatever descents and siblings do; and
(b) each merge is `maps.Copy`, where the newly copied (more recently
bound) value wins for a repeated name, so a repeated name takes the
deeper value when nothing later interferes, as `/{x}/{x}` on `/a/b`
yielding `x ↦ "b"` shows. -/
theorem C6_amended :
    (∀ {T : Type} (rm : RegexMatch) (fuel : Nat) (t : Tree T) (tokens : List Chars)
        (vars : Bindings) (k : Chars),
      (blookup vars k).isSome = true →
      (blookup (matchchildren rm fuel t tokens vars).2 k).isSome = true) ∧
    (∀ (s d : Bindings) (k w : Chars),
      (s.map Prod.fst).Nodup → blookup s k = some w →
      blookup (bcopy d s) k = some w) ∧
    secMatch rmAll (c6over.children.getD 0 (emptyTree Nat)).key
        (PathTokens (cs "/foo/xbarq/ok"))
      = (true, [cs "/xbarq", cs "/ok"], [(cs "n", cs "foo")]) ∧
    Tree.Match rmAll c6over (cs "/foo/xbarq/ok")
      = (true, some 2, [(cs "n", cs "bar"), (cs "m", cs "xbarq")]) ∧
    Tree.Match rmAll c6shadow (cs "/a/b") = (true, some 5, [(cs "x", cs "b")]) :=
  ⟨fun rm fuel t tokens vars k h => matchchildren_keeps rm fuel t tokens vars k h,
   fun s d k w hnd hl => blookup_bcopy_src s d k w hnd hl,
   by decide, by decide, by decide⟩

/-- The amended C6 at concrete inputs: a pre-existing binding `q ↦ z`
survives a full `matchchildren` run, and a copied binding wins. -/
theorem C6_amended_witness :
    ((blookup [(cs "q", cs "z")] (cs "q")).isSome = true ∧
      (blookup (matchchildren rmAll 2 c6shadow (PathTokens (cs "/a/b"))
        [(cs "q", cs "z")]).2 (cs "q")).isSome = true) ∧
    (([(cs "x", cs "y")].map Prod.fst).Nodup ∧
      blookup [(cs "x", cs "y")] (cs "x") = some (cs "y") ∧
      blookup (bcopy [(cs "q", cs "z")] [(cs "x", cs "y")]) (cs "x") = some (cs "y")) :=
  ⟨⟨by decide, C6_amended.1 rmAll 2 c6shadow (PathTokens (cs "/a/b")) [(cs "q", cs "z")]
      (cs "q") (by decide)⟩,
   ⟨by decide, by decide, C6_amended.2.1 [(cs "x", cs "y")] [(cs "q", cs "z")] (cs "x")
      (cs "y") (by decide) (by decide)⟩⟩

/-- C7, counterexample.  With `/{a} ↦ 1` registered, matching the path
`/` succeeds and binds the non-greedy variable `a` to the empty string:
a variable in final position binds whatever remains of the head token,
including nothing — contradicting the claim that every non-greedy
variable captures at least one character whenever `Section.Match`
succeeds. -/
theorem C7_counterexample :
    Tree.Match rmAll c7tree (cs "/") = (true, some 1, [(cs "a", [])]) ∧
    secMatch rmAll [⟨cs "/", [], false, none⟩, ⟨cs "{a}", cs "a", false, none⟩] [cs "/"] =
      (true, [], [(cs "a", [])]) := by decide

/-- The only error the end-of-loop code can produce. -/
theorem compileFinish_error {pattern : Chars} {pre curly : Int} {elems : List Element}
    {e : CompileError} (h : compileFinish pattern pre curly elems = .error e) :
    e = ⟨pattern, pattern.length - 1, [], cs "unclosed variable"⟩ := by
  unfold compileFinish at h
  split at h
  · injection h with h
    exact h.symm
  · exact absurd h (by simp)

/-- Under an oracle where every constraint expression compiles,
`closeVar` never fails. -/
theorem closeVar_rcAll_ne_error (pattern : Chars) (pre : Int) (i : Nat) (e : CompileError) :
    closeVar rcAll pattern pre i ≠ .error e := by
  unfold closeVar
  simp only []
  cases strIndex (slice pattern (pre + 1).toNat i) (cs ":") with
  | some idx =>
    simp only []
    by_cases hreg : List.drop (idx + 1) (slice pattern (pre + 1).toNat i) ≠ []
    · rw [if_pos hreg]
      simp [rcAll]
    · rw [if_neg hreg]
      simp
  | none => simp

/-- Under `rcAll`, one compile step never fails (the only error source
is the constraint compilation inside `closeVar`). -/
theorem compileStep_rcAll_ne_error (pattern : Chars) (c : Char) (rest : Chars) (i : Nat)
    (pre curly : Int) (elems : List Element) (e : CompileError) :
    compileStep rcAll pattern c rest i pre curly elems ≠ .error e := by
  unfold compileStep
  repeat' split
  all_goals
    first
    | exact fun _ => closeVar_rcAll_ne_error pattern pre i _ (by assumption)
    | simp

/-- Under `rcAll`, every error of the compile loop is the
unclosed-variable error at position `length − 1`. -/
theorem compileLoop_error (pattern : Chars) : ∀ (n : Nat) (rest : Chars), rest.length ≤ n →
    ∀ (i : Nat) (pre curly : Int) (elems : List Element) (e : CompileError),
    compileLoop rcAll pattern rest i pre curly elems = .error e →
    e = ⟨pattern, pattern.length - 1, [], cs "unclosed variable"⟩ := by
  intro n
  induction n with
  | zero =>
    intro rest hlen i pre curly elems e h
    rw [List.length_eq_zero.mp (Nat.le_zero.mp hlen)] at h
    exact compileFinish_error h
  | succ n ih =>
    intro rest hlen i pre curly elems e h
    cases rest with
    | nil => exact compileFinish_error h
    | cons c rest' =>
      have hlen' : rest'.length ≤ n := Nat.le_of_succ_le_succ hlen
      simp only [compileLoop] at h
      cases hs : compileStep rcAll pattern c rest' i pre curly elems with
      | error e' => exact absurd hs (compileStep_rcAll_ne_error pattern c rest' i pre curly elems e')
      | ok q =>
        obtain ⟨skip2, pre', curly', elems'⟩ := q
        rw [hs] at h
        simp only [] at h
        cases skip2 with
        | false =>
          rw [if_neg Bool.false_ne_true] at h
          exact ih rest' hlen' _ _ _ _ _ h
        | true =>
          rw [if_pos rfl] at h
          cases rest' with
          | nil => exact compileFinish_error h
          | cons c2 rest'' =>
            exact ih rest'' (Nat.le_of_succ_le hlen') _ _ _ _ _ h

/-- C9, counterexample.  Compiling `/api/{x` (unclosed variable) fails
with message `unclosed variable` and `Position = 6`, which is the
pattern's length *minus one*, not the pattern's length 7 as the claim
states; `Register` surfaces the error and leaves the tree empty. -/
theorem C9_counterexample :
    Compile rcAll (cs "/api/\x7bx") =
      .error ⟨cs "/api/\x7bx", 6, [], cs "unclosed variable"⟩ ∧
    (cs "/api/\x7bx").length = 7 ∧
    Tree.Register rcAll (emptyTree Nat) (cs "/api/\x7bx") 1 =
      (.error (.compileErr ⟨cs "/api/\x7bx", 6, [], cs "unclosed variable"⟩), emptyTree Nat) ∧
    (6 : Nat) ≠ 7 := ⟨rfl, rfl, rfl, by decide⟩

/-- Any `Compile` failure under `rcAll` is the unclosed-variable error. -/
theorem Compile_error_rcAll {pattern : Chars} {e : CompileError}
    (h : Compile rcAll pattern = .error e) :
    e = ⟨pattern, pattern.length - 1, [], cs "unclosed variable"⟩ := by
  unfold Compile at h
  cases hc : compileLoop rcAll pattern pattern 0 (-1) 0 [] with
  | error e' =>
    rw [hc] at h
    simp only [Except.map] at h
    injection h with h
    exact h ▸ compileLoop_error pattern pattern.length pattern le_rfl 0 (-1) 0 [] e' hc
  | ok l =>
    rw [hc] at h
    simp [Except.map] at h

/-- C9, amended.  A compile failure of a pattern with an unterminated
variable carries the original pattern, the message `unclosed variable`,
an empty offending substring, and `Position` equal to the pattern's
length *minus one*; `Register` surfaces the error and leaves the tree
untouched. -/
theorem C9_amended {T : Type} (pattern : Chars) (e : CompileError) (t : Tree T) (v : T)
    (h : Compile rcAll pattern = .error e) :
    e.Position = pattern.length - 1 ∧ e.Message = cs "unclosed variable" ∧
    e.Pattern = pattern ∧ e.Str = [] ∧
    Tree.Register rcAll t pattern v = (.error (.compileErr e), t) := by
  have he := Compile_error_rcAll h
  subst he
  refine ⟨rfl, rfl, rfl, rfl, ?_⟩
  unfold Tree.Register CompileSection
  rw [h]
  rfl

/-- C9, witness: the amended theorem applied to the pattern `/api/{x`. -/
theorem C9_amended_witness :
    Compile rcAll (cs "/api/\x7bx") =
      .error ⟨cs "/api/\x7bx", 6, [], cs "unclosed variable"⟩ ∧
    (6 : Nat) = (cs "/api/\x7bx").length - 1 ∧
    Tree.Register rcAll (emptyTree Nat) (cs "/api/\x7bx") 5 =
      (.error (.compileErr ⟨cs "/api/\x7bx", 6, [], cs "unclosed variable"⟩), emptyTree Nat) :=
  ⟨rfl,
    (C9_amended (cs "/api/\x7bx") ⟨cs "/api/\x7bx", 6, [], cs "unclosed variable"⟩
      (emptyTree Nat) 5 rfl).1,
    (C9_amended (cs "/api/\x7bx") ⟨cs "/api/\x7bx", 6, [], cs "unclosed variable"⟩
      (emptyTree Nat) 5 rfl).2.2.2.2⟩

/-- Node eta. -/
theorem Tree.eta {T : Type} (t : Tree T) : Tree.mk t.key t.val t.children = t := by
  cases t
  rfl

/-- Replacing an entry by itself changes nothing. -/
theorem set_getD_self {α : Type} : ∀ (l : List α) (i : Nat) (d : α), i < l.length →
    l.set i (l.getD i d) = l := by
  intro l
  induction l with
  | nil => intro i d h; simp at h
  | cons a l ih =>
    intro i d h
    cases i with
    | zero => simp
    | succ n =>
      simp only [List.getD_cons_succ, List.set_cons_succ, List.cons.injEq, true_and]
      exact ih n d (Nat.lt_of_succ_lt_succ h)

/-- A found child index is in range. -/
theorem indexChild_lt {T : Type} : ∀ (children : List (Tree T)) (s : PSection) (i : Nat),
    indexChild children s = some i → i < children.length := by
  intro children
  induction children with
  | nil => intro s i h; simp [indexChild] at h
  | cons c rest ih =>
    intro s i h
    simp only [indexChild] at h
    split at h
    · injection h with h
      rw [← h]
      simp
    · cases hr : indexChild rest s with
      | none => rw [hr] at h; simp at h
      | some j =>
        rw [hr] at h
        injection h with h
        rw [← h]
        exact Nat.succ_lt_succ (ih s j hr)

/-- Registering into a node with no children never fails and builds the
chain of the pattern's sections. -/
theorem insertPath_fresh {T : Type} (p : Chars) (v : T) :
    ∀ (sections : List PSection) (s : PSection) (k : PSection) (w : Option (MatchItem T)),
      insertPath p v (s :: sections) (.mk k w []) =
        (.mk k w [mkChain p v s sections], none) := by
  intro sections
  induction sections with
  | nil => intro s k w; rfl
  | cons s2 rest ih =>
    intro s k w
    rw [show insertPath p v (s :: s2 :: rest) (.mk k w []) =
        (.mk k w (sortChildren ([] ++ [(insertPath p v (s2 :: rest) (.mk s none [])).1])),
          (insertPath p v (s2 :: rest) (.mk s none [])).2) from rfl,
      ih s2 s none]
    rfl

/-- A failed registration leaves the tree exactly as it was. -/
theorem insertPath_error_eq {T : Type} (p : Chars) (v : T) :
    ∀ (sections : List PSection) (t t' : Tree T) (e : RegisterError),
      insertPath p v sections t = (t', some e) → t' = t := by
  intro sections
  induction sections with
  | nil => intro t t' e h; simp [insertPath] at h
  | cons s rest ih =>
    intro t t' e h
    simp only [insertPath] at h
    cases hidx : indexChild t.children s with
    | none =>
      rw [hidx] at h
      simp only [] at h
      cases rest with
      | nil =>
        rw [if_pos rfl] at h
        simp at h
      | cons s2 rest2 =>
        rw [if_neg (by simp)] at h
        rw [insertPath_fresh p v rest2 s2 s none] at h
        simp at h
    | some idx =>
      rw [hidx] at h
      simp only [] at h
      cases rest with
      | nil =>
        rw [if_pos rfl] at h
        cases hcv : (t.children.getD idx (.mk [] none [])).val with
        | some item =>
          rw [hcv] at h
          simp only [] at h
          injection h with h1 h2
          exact h1.symm
        | none =>
          rw [hcv] at h
          simp only [] at h
          simp at h
      | cons s2 rest2 =>
        rw [if_neg (by simp)] at h
        cases hr : insertPath p v (s2 :: rest2) (t.children.getD idx (.mk [] none [])) with
        | mk rt re =>
          rw [hr] at h
          simp only [] at h
          cases re with
          | none => simp at h
          | some e2 =>
            have hrt : rt = t.children.getD idx (.mk [] none []) := ih _ _ _ hr
            injection h with h1 h2
            rw [← h1, hrt, set_getD_self _ _ _ (indexChild_lt _ _ _ hidx)]
            exact Tree.eta t

/-- One unfolding of `insertPath` on a non-empty section list. -/
theorem insertPath_cons {T : Type} (p : Chars) (v : T) (s : PSection) (rest : List PSection)
    (t : Tree T) :
    insertPath p v (s :: rest) t =
      match indexChild t.children s with
      | none =>
        if rest = [] then
          (.mk t.key t.val (sortChildren (t.children ++ [Tree.mk s (some ⟨p, v⟩) []])), none)
        else
          (.mk t.key t.val (sortChildren (t.children ++
              [(insertPath p v rest (.mk s none [])).1])),
            (insertPath p v rest (.mk s none [])).2)
      | some idx =>
        let child := t.children.getD idx (.mk [] none [])
        if rest = [] then
          match child.val with
          | some item => (t, some (.conflict p item.pattern))
          | none =>
            (.mk t.key t.val (t.children.set idx (.mk child.key (some ⟨p, v⟩) child.children)),
              none)
        else
          (.mk t.key t.val (t.children.set idx (insertPath p v rest child).1),
            (insertPath p v rest child).2) := rfl

/-- The head key of a registration chain. -/
theorem mkChain_key {T : Type} (p : Chars) (v : T) (s : PSection) (rest : List PSection) :
    (mkChain p v s rest).key = s := by
  cases rest <;> rfl

/-- Registering a structurally identical section sequence into a
single-pattern chain reports the conflict between the two patterns and
leaves the chain unchanged. -/
theorem insertPath_chain_conflict {T : Type} (p1 p2 : Chars) (v1 v2 : T) :
    ∀ (rest2 rest1 : List PSection) (s1 s2 : PSection) (k : PSection)
      (w : Option (MatchItem T)),
      secString s1 = secString s2 →
      rest1.map secString = rest2.map secString →
      insertPath p2 v2 (s2 :: rest2) (.mk k w [mkChain p1 v1 s1 rest1]) =
        (.mk k w [mkChain p1 v1 s1 rest1], some (.conflict p2 p1)) := by
  intro rest2
  induction rest2 with
  | nil =>
    intro rest1 s1 s2 k w hs hrest
    have h1 : rest1 = [] := by
      cases rest1
      · rfl
      · simp at hrest
    subst h1
    have hidx : indexChild [mkChain p1 v1 s1 ([] : List PSection)] s2 = some 0 := by
      simp only [indexChild, mkChain_key]
      rw [if_pos hs]
    rw [insertPath_cons]
    simp only [Tree.children]
    rw [hidx]
    rfl
  | cons s2' rest2' ih =>
    intro rest1 s1 s2 k w hs hrest
    cases rest1 with
    | nil => simp at hrest
    | cons s1' rest1' =>
      simp only [List.map_cons, List.cons.injEq] at hrest
      obtain ⟨hs', hrest'⟩ := hrest
      have hidx : indexChild [mkChain p1 v1 s1 (s1' :: rest1')] s2 = some 0 := by
        simp only [indexChild, mkChain_key]
        rw [if_pos hs]
      rw [insertPath_cons]
      simp only [Tree.children]
      rw [hidx]
      simp only []
      rw [if_neg (by simp)]
      have hchild : ([mkChain p1 v1 s1 (s1' :: rest1')].getD 0 (.mk ([] : PSection) none [])) =
          Tree.mk s1 none [mkChain p1 v1 s1' rest1'] := rfl
      rw [hchild, ih rest1' s1' s2' s1 none hs' hrest']
      rfl

/-- C8.  (1) Any failing `Register` call — compile error or conflict —
returns the tree exactly as it was: no node added, no order changed, no
value attached.  (2) Registering a pattern whose compiled section
sequence is structurally identical (same `Section.String()` sequence) to
that of an already-registered pattern fails with the conflict error
naming the new and the existing pattern, again leaving the tree
unchanged. -/
theorem C8_theorem {T : Type} :
    (∀ (rc : RegexCheck) (t : Tree T) (p : Chars) (v : T) (e : RegisterError) (t' : Tree T),
        Tree.Register rc t p v = (.error e, t') → t' = t) ∧
    (∀ (rc : RegexCheck) (p1 p2 : Chars) (v1 v2 : T) (s1 : PSection)
        (rest1 secs2 : List PSection),
        CompileSection rc p1 = .ok (s1 :: rest1) →
        CompileSection rc p2 = .ok secs2 →
        secs2.map secString = (s1 :: rest1).map secString →
        Tree.Register rc (emptyTree T) p1 v1 =
          (.ok (patternVariables (s1 :: rest1)), .mk [] none [mkChain p1 v1 s1 rest1]) ∧
        Tree.Register rc (.mk [] none [mkChain p1 v1 s1 rest1]) p2 v2 =
          (.error (.conflict p2 p1), .mk [] none [mkChain p1 v1 s1 rest1])) := by
  constructor
  · intro rc t p v e t' h
    unfold Tree.Register at h
    cases hc : CompileSection rc p with
    | error ce =>
      rw [hc] at h
      injection h with h1 h2
      exact h2.symm
    | ok secs =>
      rw [hc] at h
      try simp only [] at h
      cases hi : insertPath p v secs t with
      | mk t2 err =>
        rw [hi] at h
        try simp only [] at h
        cases err with
        | none => simp at h
        | some er =>
          injection h with h1 h2
          rw [← h2]
          exact insertPath_error_eq p v secs t t2 er hi
  · intro rc p1 p2 v1 v2 s1 rest1 secs2 hc1 hc2 hmap
    cases secs2 with
    | nil => simp at hmap
    | cons s2 rest2 =>
      simp only [List.map_cons, List.cons.injEq] at hmap
      obtain ⟨hs, hrest⟩ := hmap
      constructor
      · unfold Tree.Register
        rw [hc1]
        simp only [emptyTree]
        rw [insertPath_fresh p1 v1 rest1 s1 [] none]
      · unfold Tree.Register
        rw [hc2]
        try simp only []
        rw [insertPath_chain_conflict p1 p2 v1 v2 rest2 rest1 s1 s2 [] none hs.symm
          hrest.symm]

/-- C8, witness: registering `/a` twice conflicts, names both patterns,
and leaves the tree unchanged. -/
theorem C8_witness :
    CompileSection rcAll (cs "/a") = .ok [[⟨cs "/a", [], false, none⟩]] ∧
    Tree.Register rcAll (emptyTree Nat) (cs "/a") 1 =
      (.ok (patternVariables [[⟨cs "/a", [], false, none⟩]]),
        .mk [] none [mkChain (cs "/a") 1 [⟨cs "/a", [], false, none⟩] []]) ∧
    Tree.Register rcAll (.mk [] none [mkChain (cs "/a") 1 [⟨cs "/a", [], false, none⟩] []])
        (cs "/a") 2 =
      (.error (.conflict (cs "/a") (cs "/a")),
        .mk [] none [mkChain (cs "/a") 1 [⟨cs "/a", [], false, none⟩] []]) ∧
    (Tree.Register rcAll (.mk [] none [mkChain (cs "/a") 1 [⟨cs "/a", [], false, none⟩] []])
        (cs "/a") 2).2 =
      .mk [] none [mkChain (cs "/a") 1 [⟨cs "/a", [], false, none⟩] []] :=
  ⟨rfl,
    ((C8_theorem (T := Nat)).2 rcAll (cs "/a") (cs "/a") 1 2 [⟨cs "/a", [], false, none⟩]
      [] [[⟨cs "/a", [], false, none⟩]] rfl rfl rfl).1,
    ((C8_theorem (T := Nat)).2 rcAll (cs "/a") (cs "/a") 1 2 [⟨cs "/a", [], false, none⟩]
      [] [[⟨cs "/a", [], false, none⟩]] rfl rfl rfl).2,
    (C8_theorem (T := Nat)).1 rcAll
      (.mk [] none [mkChain (cs "/a") 1 [⟨cs "/a", [], false, none⟩] []]) (cs "/a") 2
      (.conflict (cs "/a") (cs "/a")) _
      ((C8_theorem (T := Nat)).2 rcAll (cs "/a") (cs "/a") 1 2 [⟨cs "/a", [], false, none⟩]
        [] [[⟨cs "/a", [], false, none⟩]] rfl rfl rfl).2⟩

/-- C10.  Registering the empty pattern compiles to zero sections, so
the section loop never runs: the call returns an empty variable list, no
error, and the tree is untouched; `Match` on the empty tree is `false`
for every path (the root has no children), including the empty path. -/
theorem C10_theorem {T : Type} (rc : RegexCheck) (rm : RegexMatch) (v : T) :
    Tree.Register rc (emptyTree T) (cs "") v = (.ok [], emptyTree T) ∧
    ∀ path : Chars, (Tree.Match rm (emptyTree T) path).1 = false := by
  refine ⟨rfl, fun path => ?_⟩
  have h := matchchildren_no_children (T := T) rm (PathTokens path).length [] none
    (PathTokens path) []
  simp [Tree.Match, emptyTree, h]

/-- `(u ++ v).take u.length = u`. -/
theorem take_append_self {A : Type} : (u v : List A) -> (u ++ v).take u.length = u
  | [], _ => rfl
  | x :: u, v => by
    show x :: (u ++ v).take u.length = x :: u
    rw [take_append_self u v]

/-- `(u ++ v).drop u.length = v`. -/
theorem drop_append_self {A : Type} : (u v : List A) -> (u ++ v).drop u.length = v
  | [], _ => rfl
  | x :: u, v => by
    show (u ++ v).drop u.length = v
    exact drop_append_self u v

/-- Running the `PathTokens` loop through a slash-free stretch advances
the index and changes nothing else. -/
theorem ptl_skip (path : Chars) : (seg rest : Chars) -> ((c : Char) -> c ∈ seg -> c ≠ '/') ->
    (i pos : Nat) -> (tokens : List Chars) ->
    pathTokensLoop path (seg ++ rest) i pos tokens
      = pathTokensLoop path rest (i + seg.length) pos tokens
  | [], _, _, _, _, _ => rfl
  | c :: seg, rest, h, i, pos, tokens => by
    have hc : c ≠ '/' := h c (by simp)
    rw [List.cons_append]
    have h0 : pathTokensLoop path (c :: (seg ++ rest)) i pos tokens
        = if c = '/' then
            pathTokensLoop path (seg ++ rest) (i + 1) i
              (if pos ≠ i then tokens ++ [slice path pos i] else tokens)
          else pathTokensLoop path (seg ++ rest) (i + 1) pos tokens := rfl
    rw [h0, if_neg hc,
      ptl_skip path seg rest (fun x hx => h x (List.mem_cons_of_mem _ hx)) (i + 1) pos tokens,
      show i + 1 + seg.length = i + (c :: seg).length from by simp; omega]

/-- Running the `PathTokens` loop over a slash-free remainder returns the
accumulated tokens and the pending position unchanged. -/
theorem ptl_tail (path : Chars) : (seg : Chars) -> ((c : Char) -> c ∈ seg -> c ≠ '/') ->
    (i pos : Nat) -> (tokens : List Chars) ->
    pathTokensLoop path seg i pos tokens = (tokens, pos)
  | [], _, _, _, _ => rfl
  | c :: seg, h, i, pos, tokens => by
    have hc : c ≠ '/' := h c (by simp)
    have h0 : pathTokensLoop path (c :: seg) i pos tokens
        = if c = '/' then
            pathTokensLoop path seg (i + 1) i
              (if pos ≠ i then tokens ++ [slice path pos i] else tokens)
          else pathTokensLoop path seg (i + 1) pos tokens := rfl
    rw [h0, if_neg hc]
    exact ptl_tail path seg (fun x hx => h x (List.mem_cons_of_mem _ hx)) (i + 1) pos tokens

/-- One `'/'` step of the `PathTokens` loop with a pending run: the run
`path[pos:i]` is emitted as a token. -/
theorem ptl_slash (path rest : Chars) (i pos : Nat) (tokens : List Chars) (h : pos ≠ i) :
    pathTokensLoop path ('/' :: rest) i pos tokens
      = pathTokensLoop path rest (i + 1) i (tokens ++ [slice path pos i]) := by
  have h0 : pathTokensLoop path ('/' :: rest) i pos tokens
      = pathTokensLoop path rest (i + 1) i
          (if pos ≠ i then tokens ++ [slice path pos i] else tokens) := rfl
  rw [h0, if_pos h]

/-- Tokenization of a substituted skeleton of `c1pat`: with `a` and `b`
slash-free, `/api/a/b` tokenizes into `/api`, `/a`, `/b`. -/
theorem pathTokens_c1 (a b : Chars)
    (ha : (c : Char) -> c ∈ a -> c ≠ '/') (hb : (c : Char) -> c ∈ b -> c ≠ '/') :
    PathTokens (cs "/api/" ++ a ++ '/' :: b) = [cs "/api", '/' :: a, '/' :: b] := by
  have h1 : pathTokensLoop (cs "/api/" ++ a ++ '/' :: b) (cs "/api/" ++ a ++ '/' :: b) 0 0 []
      = pathTokensLoop (cs "/api/" ++ a ++ '/' :: b) (a ++ '/' :: b) 5 4 [cs "/api"] := rfl
  have h2 := ptl_skip (cs "/api/" ++ a ++ '/' :: b) a ('/' :: b) ha 5 4 [cs "/api"]
  have h3 := ptl_slash (cs "/api/" ++ a ++ '/' :: b) b (5 + a.length) 4 [cs "/api"]
    (by omega)
  have h4 := ptl_tail (cs "/api/" ++ a ++ '/' :: b) b hb (5 + a.length + 1) (5 + a.length)
    ([cs "/api"] ++ [slice (cs "/api/" ++ a ++ '/' :: b) 4 (5 + a.length)])
  have hsl : slice (cs "/api/" ++ a ++ '/' :: b) 4 (5 + a.length) = '/' :: a := by
    show ((cs "/api/" ++ a ++ '/' :: b).drop 4).take (5 + a.length - 4) = '/' :: a
    rw [show (cs "/api/" ++ a ++ '/' :: b).drop 4 = '/' :: (a ++ '/' :: b) from rfl,
      show 5 + a.length - 4 = a.length + 1 from by omega]
    show '/' :: (a ++ '/' :: b).take a.length = '/' :: a
    rw [take_append_self]
  have hloop : pathTokensLoop (cs "/api/" ++ a ++ '/' :: b) (cs "/api/" ++ a ++ '/' :: b) 0 0 []
      = ([cs "/api", '/' :: a], 5 + a.length) := by
    rw [h1, h2, h3, h4, hsl]
    rfl
  have hlen : (cs "/api/" ++ a ++ '/' :: b).length = a.length + b.length + 6 := by
    rw [List.length_append, List.length_append, List.length_cons,
      show (cs "/api/").length = 5 from rfl]
    omega
  have hne : ¬((5 + a.length) = (cs "/api/" ++ a ++ '/' :: b).length) := by
    rw [hlen]; omega
  have hdr : (cs "/api/" ++ a ++ '/' :: b).drop (5 + a.length) = '/' :: b := by
    rw [show 5 + a.length = a.length + 5 from by omega]
    exact drop_append_self a ('/' :: b)
  show (if (pathTokensLoop (cs "/api/" ++ a ++ '/' :: b) (cs "/api/" ++ a ++ '/' :: b) 0 0 []).2
        ≠ (cs "/api/" ++ a ++ '/' :: b).length then
      (pathTokensLoop (cs "/api/" ++ a ++ '/' :: b) (cs "/api/" ++ a ++ '/' :: b) 0 0 []).1
        ++ [(cs "/api/" ++ a ++ '/' :: b).drop
          (pathTokensLoop (cs "/api/" ++ a ++ '/' :: b) (cs "/api/" ++ a ++ '/' :: b) 0 0 []).2]
    else (pathTokensLoop (cs "/api/" ++ a ++ '/' :: b) (cs "/api/" ++ a ++ '/' :: b) 0 0 []).1)
      = [cs "/api", '/' :: a, '/' :: b]
  rw [hloop]
  show (if (5 + a.length) ≠ (cs "/api/" ++ a ++ '/' :: b).length then
      [cs "/api", '/' :: a] ++ [(cs "/api/" ++ a ++ '/' :: b).drop (5 + a.length)]
    else [cs "/api", '/' :: a]) = [cs "/api", '/' :: a, '/' :: b]
  rw [if_pos hne, hdr]
  rfl

/-- C1 (amended).  The per-pattern guarantee holds for a pattern
registered alone: registering the representative whole-segment route
pattern `/api/{name}/{path}` into the empty tree succeeds, returns the
declared names `name` and `path`, and for every slash-free `a` and `b`,
`Match` on `/api/a/b` returns `matched = true` with the registered value
and bindings exactly `name = a`, `path = b` — the registered value comes
back and every declared variable name is bound.  (The original claim's
"regardless of which other patterns are registered" is refuted by the
counterexample above.) -/
theorem C1_amended {T : Type} (v : T) (a b : Chars) (ha : '/' ∉ a) (hb : '/' ∉ b) :
    (Tree.Register rcAll (emptyTree T) c1pat v).1 = .ok [cs "name", cs "path"] ∧
    Tree.Match rmAll (Tree.Register rcAll (emptyTree T) c1pat v).2
        (cs "/api/" ++ a ++ '/' :: b)
      = (true, some v, [(cs "name", a), (cs "path", b)]) := by
  refine ⟨rfl, ?_⟩
  have hpt := pathTokens_c1 a b (fun c hc hce => ha (hce ▸ hc)) (fun c hc hce => hb (hce ▸ hc))
  simp only [Tree.Match]
  rw [hpt]
  rfl

/-- The amended C1 at a concrete instance: value 9, `a = dog`, `b = w`. -/
theorem C1_amended_witness :
    ('/' ∉ cs "dog" ∧ '/' ∉ cs "w") ∧
    ((Tree.Register rcAll (emptyTree Nat) c1pat 9).1 = .ok [cs "name", cs "path"] ∧
     Tree.Match rmAll (Tree.Register rcAll (emptyTree Nat) c1pat 9).2
         (cs "/api/" ++ cs "dog" ++ '/' :: cs "w")
       = (true, some 9, [(cs "name", cs "dog"), (cs "path", cs "w")])) :=
  ⟨⟨by decide, by decide⟩,
    C1_amended 9 (cs "dog") (cs "w") (by decide) (by decide)⟩

end Matcher
